import Mathlib

/-!
Verification of the code-chunker pipeline (vscode-codeBase repository).

This file shallowly embeds the JavaScript sources of the chunking pipeline:
the per-language AST parsers' adjacent-merge pass and chunk formatting
(`src/code-chunker/src/parsers/AstParser/PythonParser.js`), the line-based
splitter (`BaseParser._splitIntoChunks`), the failure-tolerant parse ladder
(`PythonParser.parseContent`), the chunk cache (`IndexCache.js` and
`CacheDatabase.js`), the Merkle change detector (`MerkleTreeManager`), the
progress tracker's file-status derivation (`progressTracker.js`), and the
control flow of `CodeChunker.processWorkspace` (`IncrementalProcessor.js`).

Strings are modelled by Lean `String` values manipulated through their
character lists; machine integers by `Nat` (JavaScript array lengths, line
numbers and byte counts are non-negative integers in all modelled code
paths); thrown JavaScript exceptions by `Except JsError`.
-/

namespace CodeChunker

/-- UTF-8 byte length of a string, the model of `Buffer.byteLength(s, 'utf8')`. -/
def utf8Len (s : String) : Nat :=
  (s.data.map Char.utf8Size).sum

/-- Splitting a character list at a separator character; every separator
occurrence ends a field, and the final (possibly empty) field is kept.
Model of JavaScript `String.prototype.split` with a one-character separator. -/
def splitCharAux (sep : Char) : List Char → List Char → List (List Char)
  | [], acc => [acc.reverse]
  | c :: rest, acc =>
    if c = sep then acc.reverse :: splitCharAux sep rest []
    else splitCharAux sep rest (c :: acc)

/-- Model of `s.split(sep)` for a one-character separator `sep`. -/
def splitChar (sep : Char) (s : String) : List String :=
  (splitCharAux sep s.data []).map String.mk

/-- Model of `Array.prototype.join('\n')` on a list of lines. -/
def joinNl : List String → String
  | [] => ""
  | [l] => l
  | l :: rest => l ++ "\n" ++ joinNl rest

/-- Model of `'\n'.repeat(k)`. -/
def repNl (k : Nat) : String :=
  String.mk (List.replicate k '\n')

/-- Model of Node's `path.basename` for forward-slash paths: the final
path component. -/
def basename (p : String) : String :=
  ((splitChar '/' p).getLast?).getD p

/-- Model of the first-`k`-characters truncation `s.substring(0, k)`
(JavaScript indexes UTF-16 units; all modelled call sites compare and cut
at megabyte granularity where the distinction is immaterial). -/
def strTake (s : String) (k : Nat) : String :=
  String.mk (s.data.take k)

/-- Model of `content.replace(/\0/g, '')`. -/
def stripNul (s : String) : String :=
  String.mk (s.data.filter (fun c => c != Char.ofNat 0))

/-- The control characters removed by the second-stage cleaning regex
`[\x00-\x08\x0B\x0C\x0E-\x1F\x7F]`. -/
def isStrippedCtrl (c : Char) : Bool :=
  (c.toNat ≤ 0x08) || (c.toNat = 0x0B) || (c.toNat = 0x0C) ||
    (0x0E ≤ c.toNat && c.toNat ≤ 0x1F) || (c.toNat = 0x7F)

/-- Model of `.replace(/[\x00-\x08\x0B\x0C\x0E-\x1F\x7F]/g, '')`. -/
def stripCtrl (s : String) : String :=
  String.mk (s.data.filter (fun c => ! isStrippedCtrl c))

/-- Model of `.replace(/\r\n/g, '\n').replace(/\r/g, '\n')`: CRLF pairs
collapse to one LF, remaining CRs become LFs. -/
def normCRLFAux : List Char → List Char
  | [] => []
  | '\r' :: '\n' :: rest => '\n' :: normCRLFAux rest
  | '\r' :: rest => '\n' :: normCRLFAux rest
  | c :: rest => c :: normCRLFAux rest

/-- Newline normalization applied in the second parse attempt. -/
def normCRLF (s : String) : String :=
  String.mk (normCRLFAux s.data)

/-! ## SHA-256 (model of Node `crypto.createHash('sha256')...digest('hex')`)

An executable implementation over `Nat` with explicit reduction modulo
`2 ^ 32`; the digest is rendered as lowercase hexadecimal, as Node's
`digest('hex')` does. -/

/-- Reduction modulo `2 ^ 32`. -/
def m32 (x : Nat) : Nat := x % 4294967296

/-- 32-bit right rotation. -/
def rotr (n x : Nat) : Nat :=
  m32 ((x >>> n) ||| (x <<< (32 - n)))

/-- UTF-8 encoding of one character as a byte list. -/
def charUtf8 (c : Char) : List Nat :=
  let n := c.toNat
  if n < 0x80 then [n]
  else if n < 0x800 then
    [0xC0 ||| (n >>> 6), 0x80 ||| (n &&& 0x3F)]
  else if n < 0x10000 then
    [0xE0 ||| (n >>> 12), 0x80 ||| ((n >>> 6) &&& 0x3F), 0x80 ||| (n &&& 0x3F)]
  else
    [0xF0 ||| (n >>> 18), 0x80 ||| ((n >>> 12) &&& 0x3F),
      0x80 ||| ((n >>> 6) &&& 0x3F), 0x80 ||| (n &&& 0x3F)]

/-- UTF-8 bytes of a string. -/
def strUtf8 (s : String) : List Nat :=
  (s.data.map charUtf8).flatten

/-- Big-endian byte rendering of `v` in `n` bytes. -/
def toBytesBE (n v : Nat) : List Nat :=
  (List.range n).map (fun i => (v >>> ((n - 1 - i) * 8)) &&& 255)

/-- SHA-256 round constants. -/
def shaK : List Nat :=
  [1116352408, 1899447441, 3049323471, 3921009573, 961987163,
   1508970993, 2453635748, 2870763221, 3624381080, 310598401,
   607225278, 1426881987, 1925078388, 2162078206, 2614888103,
   3248222580, 3835390401, 4022224774, 264347078, 604807628,
   770255983, 1249150122, 1555081692, 1996064986, 2554220882,
   2821834349, 2952996808, 3210313671, 3336571891, 3584528711,
   113926993, 338241895, 666307205, 773529912, 1294757372,
   1396182291, 1695183700, 1986661051, 2177026350, 2456956037,
   2730485921, 2820302411, 3259730800, 3345764771, 3516065817,
   3600352804, 4094571909, 275423344, 430227734, 506948616,
   659060556, 883997877, 958139571, 1322822218, 1537002063,
   1747873779, 1955562222, 2024104815, 2227730452, 2361852424,
   2428436474, 2756734187, 3204031479, 3329325298]

/-- SHA-256 initial hash state. -/
def shaH0 : List Nat :=
  [1779033703, 3144134277, 1013904242, 2773480762,
   1359893119, 2600822924, 528734635, 1541459225]

/-- Standard SHA-256 padding: append `0x80`, zero bytes up to 56 mod 64,
then the bit length as eight big-endian bytes. -/
def padMsg (bytes : List Nat) : List Nat :=
  let len := bytes.length
  let zeros := (119 - (len % 64)) % 64
  bytes ++ [0x80] ++ List.replicate zeros 0 ++ toBytesBE 8 (len * 8)

/-- Cut a byte list into 64-byte blocks. -/
def toBlocks (l : List Nat) : List (List Nat) :=
  if l = [] then []
  else l.take 64 :: toBlocks (l.drop 64)
termination_by l.length
decreasing_by
  simp only [List.length_drop]
  cases l with
  | nil => simp_all
  | cons a t => simp only [List.length_cons]; omega

/-- One 32-bit big-endian word read from bytes at offset `4 * i`. -/
def word32At (block : List Nat) (i : Nat) : Nat :=
  (block.getD (4 * i) 0 <<< 24) ||| (block.getD (4 * i + 1) 0 <<< 16) |||
    (block.getD (4 * i + 2) 0 <<< 8) ||| block.getD (4 * i + 3) 0

/-- Message schedule: the 16 block words extended to 64. -/
def shaSchedule (block : List Nat) : List Nat :=
  let w0 := (List.range 16).map (word32At block)
  (List.range 48).foldl
    (fun w _ =>
      let t := w.length
      let s0 :=
        let x := w.getD (t - 15) 0
        (rotr 7 x) ^^^ (rotr 18 x) ^^^ (x >>> 3)
      let s1 :=
        let x := w.getD (t - 2) 0
        (rotr 17 x) ^^^ (rotr 19 x) ^^^ (x >>> 10)
      w ++ [m32 (w.getD (t - 16) 0 + s0 + w.getD (t - 7) 0 + s1)])
    w0

/-- SHA-256 compression of one block into the running state. -/
def shaCompress (state : List Nat) (block : List Nat) : List Nat :=
  let w := shaSchedule block
  let final := (List.range 64).foldl
    (fun v t =>
      let a := v.getD 0 0
      let b := v.getD 1 0
      let c := v.getD 2 0
      let d := v.getD 3 0
      let e := v.getD 4 0
      let f := v.getD 5 0
      let g := v.getD 6 0
      let h := v.getD 7 0
      let s1 := (rotr 6 e) ^^^ (rotr 11 e) ^^^ (rotr 25 e)
      let ch := (e &&& f) ^^^ ((4294967295 - e) &&& g)
      let t1 := m32 (h + s1 + ch + shaK.getD t 0 + w.getD t 0)
      let s0 := (rotr 2 a) ^^^ (rotr 13 a) ^^^ (rotr 22 a)
      let mj := (a &&& b) ^^^ (a &&& c) ^^^ (b &&& c)
      let t2 := m32 (s0 + mj)
      [m32 (t1 + t2), a, b, c, m32 (d + t1), e, f, g])
    state
  (state.zip final).map (fun p => m32 (p.1 + p.2))

/-- Hexadecimal digit characters, lowercase. -/
def hexDigits : List Char :=
  "0123456789abcdef".data

/-- Lowercase hex character of `n % 16`. -/
def hexChar (n : Nat) : Char :=
  hexDigits.getD (n % 16) '0'

/-- Lowercase hexadecimal rendering of a byte list. -/
def bytesToHex (bs : List Nat) : List Char :=
  bs.foldr (fun b acc => hexChar (b / 16) :: hexChar (b % 16) :: acc) []

/-- Lowercase-hex SHA-256 digest of a string; the model of
`crypto.createHash('sha256').update(s).digest('hex')`. -/
def sha256Hex (s : String) : String :=
  let blocks := toBlocks (padMsg (strUtf8 s))
  let final := blocks.foldl shaCompress shaH0
  String.mk (bytesToHex ((final.map (toBytesBE 4)).flatten))

theorem hexChar_mem (n : Nat) : hexChar n ∈ hexDigits := by
  unfold hexChar
  have h : n % 16 < hexDigits.length := by
    have h16 : hexDigits.length = 16 := rfl
    rw [h16]
    exact Nat.mod_lt n (by omega)
  rw [List.getD_eq_getElem hexDigits '0' h]
  exact List.getElem_mem h

theorem bytesToHex_mem (bs : List Nat) (c : Char) (hc : c ∈ bytesToHex bs) :
    c ∈ hexDigits := by
  induction bs with
  | nil => simp [bytesToHex] at hc
  | cons b rest ih =>
    simp only [bytesToHex, List.foldr_cons] at hc
    rw [List.mem_cons, List.mem_cons] at hc
    rcases hc with h | h | h
    · exact h ▸ hexChar_mem _
    · exact h ▸ hexChar_mem _
    · exact ih h

/-- Every character of a SHA-256 hex digest is a lowercase hex digit. -/
theorem sha256Hex_lowerHex (s : String) (c : Char) (hc : c ∈ (sha256Hex s).data) :
    c ∈ hexDigits := by
  unfold sha256Hex at hc
  exact bytesToHex_mem _ c hc

/-! ## Chunk data model

`Cand` models the intermediate chunk objects built by the extraction
methods of `PythonParser` (`_extractImports`, `_extractClasses`, ...):
plain records with `type`, `content`, 1-based `startLine`/`endLine`, and an
optional `name`. `Chunk` models the formatted objects returned by
`parseContent`. JavaScript tests a `name` with truthiness, so a present but
empty `name` behaves as absent; `nameTruthy` models that test. -/

structure Cand where
  type : String
  content : String
  startLine : Nat
  endLine : Nat
  name : Option String := none
deriving DecidableEq, Repr

structure Chunk where
  chunkId : String
  filePath : String
  language : String
  startLine : Nat
  endLine : Nat
  content : String
  parser : String
  type : String
  name : Option String := none
deriving DecidableEq, Repr

/-- JavaScript truthiness of a possibly-absent string field: absent and
empty are both falsy. -/
def nameTruthy : Option String → Bool
  | none => false
  | some s => s ≠ ""

/-- Model of `generateChunkId(filePath, startLine, endLine)` from
`PythonParser` and `BaseParser`: the SHA-256 hex digest of
`filePath ++ ":" ++ startLine ++ ":" ++ endLine`. -/
def generateChunkId (filePath : String) (startLine endLine : Nat) : String :=
  sha256Hex (filePath ++ ":" ++ toString startLine ++ ":" ++ toString endLine)

/-! ## Adjacent-merge pass (`PythonParser._mergeAdjacentChunks`, identical
in `JavaParser` and `RustParser`) -/

/-- Stable insertion of a candidate into a list sorted ascending by
`startLine`; together with `sortByStartLine` this models the stable
JavaScript `chunks.sort((a, b) => a.startLine - b.startLine)`. -/
def insertByStart (x : Cand) : List Cand → List Cand
  | [] => [x]
  | y :: ys =>
    if y.startLine < x.startLine then y :: insertByStart x ys
    else x :: y :: ys

/-- Stable sort by `startLine` ascending. -/
def sortByStartLine (l : List Cand) : List Cand :=
  l.foldr insertByStart []

/-- The merge of two candidates as built inside the loop body of
`_mergeAdjacentChunks`: content is the first content, then — when
`next.startLine > current.endLine` — that many newline characters, then the
second content; the merged `name` is the first truthy one, mirroring the
object-spread conditionals
`...(current.name && {name}), ...(next.name && !current.name && {name})`. -/
def mergeTwo (current next : Cand) : Cand :=
  { type := current.type
    content :=
      (if current.endLine < next.startLine then
        current.content ++ repNl (next.startLine - current.endLine)
      else current.content) ++ next.content
    startLine := current.startLine
    endLine := next.endLine
    name :=
      if nameTruthy current.name then current.name
      else if nameTruthy next.name then next.name
      else none }

/-- The forward walk of `_mergeAdjacentChunks`: `current` is the running
accumulator, a candidate is merged into it exactly when it has the same
`type` and starts at most two lines past the accumulator's end. -/
def mergeGo (current : Cand) : List Cand → List Cand
  | [] => [current]
  | next :: rest =>
    if current.type = next.type ∧ next.startLine ≤ current.endLine + 2 then
      mergeGo (mergeTwo current next) rest
    else
      current :: mergeGo next rest

/-- Model of `PythonParser._mergeAdjacentChunks`: sort by `startLine`
ascending, then walk pairwise merging adjacent same-type candidates. -/
def mergeAdjacentChunks (chunks : List Cand) : List Cand :=
  match sortByStartLine chunks with
  | [] => []
  | c :: rest => mergeGo c rest

/-- Model of the final formatting `mergedChunks.map(chunk => ({...}))` in
`PythonParser.parseContent`: `relativePath` is the value
`path.basename(filePath)` computed there. -/
def pythonFormatChunks (relativePath : String) (chunks : List Cand) : List Chunk :=
  chunks.map (fun ch =>
    { chunkId := generateChunkId relativePath ch.startLine ch.endLine
      filePath := relativePath
      language := "python"
      startLine := ch.startLine
      endLine := ch.endLine
      content := ch.content
      parser := "python_parser"
      type := ch.type
      name := if nameTruthy ch.name then ch.name else none })

/-! ## Spec-side merge, for the refinement comparison of claim C3.

`mergeTwoSpec` and `mergeAdjacentSpec` are modelled from the spec's words:
"two candidates merge iff they share the same type AND
next.startLine ≤ current.endLine + 2. Merged content concatenates the two
original contents, inserting newline × (next.startLine − current.endLine)
between them when there is a gap. The merged chunk keeps the earlier name
if present, else the later." -/

/-- Modelled from the spec: the merged candidate as the spec describes it. -/
def mergeTwoSpec (current next : Cand) : Cand :=
  { type := current.type
    content :=
      current.content ++
        (if current.endLine < next.startLine then
          repNl (next.startLine - current.endLine)
        else "") ++ next.content
    startLine := current.startLine
    endLine := next.endLine
    name := current.name <|> next.name }

/-- Modelled from the spec: the pairwise walk over the sorted candidates. -/
def mergeSpecGo (current : Cand) : List Cand → List Cand
  | [] => [current]
  | next :: rest =>
    if current.type = next.type ∧ next.startLine ≤ current.endLine + 2 then
      mergeSpecGo (mergeTwoSpec current next) rest
    else
      current :: mergeSpecGo next rest

/-- Modelled from the spec: the whole adjacent-merge pass. -/
def mergeAdjacentSpec (chunks : List Cand) : List Cand :=
  match sortByStartLine chunks with
  | [] => []
  | c :: rest => mergeSpecGo c rest

/-- A candidate name as the spec's data model has it: either absent or a
captured (non-empty) identifier. -/
def nameWF (c : Cand) : Prop := c.name ≠ some ""

instance (c : Cand) : Decidable (nameWF c) := by
  unfold nameWF; infer_instance

/-! ## Line chunker (`BaseParser._splitIntoChunks`)

The loop walks the lines of the content; it flushes the current chunk
whenever its line count has reached `linesPerChunk` or appending the next
line (counted with its trailing newline) would push the running byte size
past `maxChunkSize = 9 * 1024`. State mirrors the JavaScript locals:
`cur` is `currentChunk`, `size` is `currentSize`, `start1` is `startLine`,
and `i` the 0-based loop index. -/

/-- The chunk object built by `BaseParser._createChunk` for a flushed group
of lines (`type = 'line_based'`, parser name derived from the constructor
name `BaseParser`). -/
def mkLineChunk (cur : List String) (start1 : Nat) (filePath language : String) : Chunk :=
  { chunkId := generateChunkId filePath start1 (start1 + cur.length - 1)
    filePath := filePath
    language := language
    startLine := start1
    endLine := start1 + cur.length - 1
    content := joinNl cur
    parser := "base_parser"
    type := "line_based" }

/-- The loop body of `_splitIntoChunks`. -/
def splitGo (lpc maxB : Nat) (filePath language : String) :
    List String → Nat → List String → Nat → Nat → List Chunk
  | [], _, cur, _, start1 =>
    if cur.length > 0 then [mkLineChunk cur start1 filePath language] else []
  | line :: rest, i, cur, size, start1 =>
    let lineSize := utf8Len line + 1
    if cur.length ≥ lpc ∨ size + lineSize > maxB then
      (if cur.length > 0 then [mkLineChunk cur start1 filePath language] else []) ++
        splitGo lpc maxB filePath language rest (i + 1) [line] lineSize (i + 1)
    else
      splitGo lpc maxB filePath language rest (i + 1) (cur ++ [line]) (size + lineSize) start1

/-- Model of `BaseParser._splitIntoChunks(content, filePath, language)`
with `maxChunkSize` fixed to `9 * 1024 = 9216` as in the constructor. -/
def splitIntoChunks (lpc : Nat) (filePath language content : String) : List Chunk :=
  splitGo lpc 9216 filePath language (splitChar '\n' content) 0 [] 0 1

/-! ## Failure-tolerant parse ladder (`PythonParser.parseContent`)

The tree-sitter grammar is abstracted by an oracle `parseOk : String →
Bool` (whether `this.parser.parse` succeeds on a given cleaned content and
yields a usable root node) and by `extract : String → List Cand` (the
candidates the five `_extract*` walks produce from the tree of that
content). Both are value parameters of the embedding; the source's own
control flow around them is translated literally. -/

/-- First-stage cleaning: strip NUL bytes, then truncate contents larger
than 1 MiB to their first 1 MiB. -/
def cleanStage1 (content : String) : String :=
  let c := stripNul content
  if c.length > 1048576 then strTake c 1048576 else c

/-- Second-stage cleaning applied after the first grammar failure: strip
the remaining control characters and normalize CRLF / CR to LF. -/
def cleanStage2 (c1 : String) : String :=
  normCRLF (stripCtrl c1)

/-- Third attempt content: only the first 100 lines of the second-stage
cleaned content. -/
def cleanStage3 (c2 : String) : String :=
  joinNl ((splitChar '\n' c2).take 100)

/-- The try/catch cascade around `this.parser.parse`: the content variant
the tree was finally parsed from, or `none` after the third failure. -/
def parseLadder (parseOk : String → Bool) (c1 : String) : Option String :=
  if parseOk c1 then some c1
  else
    let c2 := cleanStage2 c1
    if parseOk c2 then some c2
    else
      let c3 := cleanStage3 c2
      if parseOk c3 then some c3
      else none

/-- The `relativePath` computed in `parseContent`:
`filePath ? path.basename(filePath) : 'unknown'`. -/
def relPath : Option String → String
  | some p => basename p
  | none => "unknown"

/-- Model of `PythonParser.parseContent(content, filePath)`. Early returns
for empty and over-10 MiB content, the cleaning/parse ladder, then
extraction, adjacent merge and formatting; every failure path returns `[]`
(the outer catch also returns `[]`, so the function is total). -/
def pythonParseContent (parseOk : String → Bool) (extract : String → List Cand)
    (filePath : Option String) (content : String) : List Chunk :=
  if content.length = 0 then []
  else if content.length > 10485760 then []
  else
    match parseLadder parseOk (cleanStage1 content) with
    | none => []
    | some used =>
      pythonFormatChunks (relPath filePath) (mergeAdjacentChunks (extract used))

/-! ## Chunk cache (`IndexCache.js` backed by `CacheDatabase.js`)

The SQLite table is modelled as a list of rows keyed by `cache_key`
(a primary key, so `setEntry` replaces an existing row). Timestamps are
milliseconds as `Nat`; the md5 key derivation
`crypto.createHash('md5').update(filePath + ':' + fileHash).digest('hex')`
is abstracted by a hash parameter `md5Hex`, since only the mapping
structure — not the digest algorithm — affects the modelled claims. -/

structure CEntry where
  key : String
  filePath : String
  fileHash : String
  dataSize : Nat
  createdAt : Nat
  lastAccessed : Nat
deriving DecidableEq, Repr

structure CacheDb where
  entries : List CEntry
deriving DecidableEq, Repr

structure FileRef where
  path : String
  hash : String
deriving DecidableEq, Repr

/-- Model of `IndexCache.generateCacheKey(filePath, fileHash)`. -/
def generateCacheKey (md5Hex : String → String) (filePath fileHash : String) : String :=
  md5Hex (filePath ++ ":" ++ fileHash)

/-- Model of `CacheDatabase.getEntry`: `SELECT * WHERE cache_key = ?`. -/
def getEntry (db : CacheDb) (key : String) : Option CEntry :=
  db.entries.find? (fun e => e.key == key)

/-- Model of `CacheDatabase.deleteEntry`: `DELETE WHERE cache_key = ?`. -/
def deleteEntry (db : CacheDb) (key : String) : CacheDb :=
  ⟨db.entries.filter (fun e => ! (e.key == key))⟩

/-- Model of `IndexCache.isExpired(createdAt)`: the age in hours exceeds
`ttlHours` (compared at millisecond precision; a `createdAt` in the future
gives a non-positive age, never expired, matching the JavaScript float
comparison). -/
def isExpired (now ttlHours : Nat) (createdAt : Nat) : Bool :=
  now - createdAt > ttlHours * 3600000

/-- Model of `IndexCache.has(filePath, fileHash)`: looks the key up,
deletes the row and answers `false` when it is expired, otherwise answers
whether a row exists. Returns the verdict with the possibly-shrunk store. -/
def cacheHas (md5Hex : String → String) (now ttlHours : Nat) (db : CacheDb)
    (filePath fileHash : String) : Bool × CacheDb :=
  let key := generateCacheKey md5Hex filePath fileHash
  match getEntry db key with
  | none => (false, db)
  | some e =>
    if isExpired now ttlHours e.createdAt then (false, deleteEntry db key)
    else (true, db)

structure BatchResult where
  cached : List FileRef
  uncached : List FileRef
  expired : List FileRef
deriving DecidableEq, Repr

/-- The loop body of `IndexCache.batchCheck`: one `has` check, the file
appended to `cached` or `uncached`. -/
def batchCheckStep (md5Hex : String → String) (now ttlHours : Nat)
    (acc : BatchResult × CacheDb) (f : FileRef) : BatchResult × CacheDb :=
  let hit := (cacheHas md5Hex now ttlHours acc.2 f.path f.hash).1
  let db' := (cacheHas md5Hex now ttlHours acc.2 f.path f.hash).2
  if hit then ({ acc.1 with cached := acc.1.cached ++ [f] }, db')
  else ({ acc.1 with uncached := acc.1.uncached ++ [f] }, db')

/-- Model of `IndexCache.batchCheck(files)`: one `has` check per file;
nothing is ever appended to `expired`. -/
def batchCheck (md5Hex : String → String) (now ttlHours : Nat) (db : CacheDb)
    (files : List FileRef) : BatchResult × CacheDb :=
  files.foldl (batchCheckStep md5Hex now ttlHours) (⟨[], [], []⟩, db)

/-- The stateless validity verdict for a file against the initial store:
a row exists under the file's key and is not expired. `batchCheck`'s
partition is characterized by this predicate. -/
def validInDb (md5Hex : String → String) (now ttlHours : Nat) (db : CacheDb)
    (f : FileRef) : Bool :=
  match getEntry db (generateCacheKey md5Hex f.path f.hash) with
  | none => false
  | some e => ! isExpired now ttlHours e.createdAt

/-! ### Storage limits (`IndexCache.enforceStorageLimits`, claim C7) -/

structure CacheCfg where
  maxSizeMB : Nat
  maxEntries : Nat
deriving DecidableEq, Repr

/-- `this.config.maxSizeMB * 1024 * 1024`. -/
def maxSizeBytes (cfg : CacheCfg) : Nat := cfg.maxSizeMB * 1048576

/-- `maxSizeBytes * 0.8`, the size the eviction loop shrinks to. -/
def targetSize (cfg : CacheCfg) : Nat := (4 * maxSizeBytes cfg) / 5

/-- `SELECT COUNT(*)`. -/
def entryCount (db : CacheDb) : Nat := db.entries.length

/-- `SELECT SUM(data_size)`. -/
def totalSize (db : CacheDb) : Nat := (db.entries.map CEntry.dataSize).sum

/-- Stable insertion by `last_accessed` ascending. -/
def insertByAccess (x : CEntry) : List CEntry → List CEntry
  | [] => [x]
  | y :: ys =>
    if y.lastAccessed ≤ x.lastAccessed then y :: insertByAccess x ys
    else x :: y :: ys

/-- The entries ordered by `last_accessed` ascending (`ORDER BY
last_accessed ASC`). -/
def sortByAccess (l : List CEntry) : List CEntry :=
  l.foldr insertByAccess []

/-- Model of `CacheDatabase.deleteOldestEntries(count)`: delete the
`count` least-recently-accessed rows. -/
def deleteOldestEntries (db : CacheDb) (count : Nat) : CacheDb :=
  ⟨(sortByAccess db.entries).drop count⟩

theorem length_insertByAccess (x : CEntry) (l : List CEntry) :
    (insertByAccess x l).length = l.length + 1 := by
  induction l with
  | nil => rfl
  | cons y ys ih =>
    unfold insertByAccess
    by_cases h : y.lastAccessed ≤ x.lastAccessed <;> simp [h, ih]

theorem length_sortByAccess (l : List CEntry) :
    (sortByAccess l).length = l.length := by
  induction l with
  | nil => rfl
  | cons y ys ih =>
    simp only [sortByAccess, List.foldr_cons, length_insertByAccess,
      List.length_cons] at ih ⊢
    omega

/-- The `while (true)` eviction loop inside `enforceStorageLimits`: delete
batches of 100 oldest rows until the total size reaches the 80% target,
guarding against an empty delete. -/
def evictLoop (cfg : CacheCfg) (db : CacheDb) : CacheDb :=
  if totalSize db ≤ targetSize cfg then db
  else if entryCount (deleteOldestEntries db 100) = entryCount db then
    deleteOldestEntries db 100
  else evictLoop cfg (deleteOldestEntries db 100)
termination_by entryCount db
decreasing_by
  rename_i _h1 h2
  simp only [entryCount, deleteOldestEntries, List.length_drop,
    length_sortByAccess] at h2 ⊢
  omega

/-- Model of `IndexCache.enforceStorageLimits()`: first the entry-count
pass (delete exactly the excess over `maxEntries`, LRU order), then the
size pass, which triggers only when the total exceeds `maxSizeBytes` and
then evicts down to 80% of it. -/
def enforceStorageLimits (cfg : CacheCfg) (db : CacheDb) : CacheDb :=
  let db1 :=
    if entryCount db > cfg.maxEntries then
      deleteOldestEntries db (entryCount db - cfg.maxEntries)
    else db
  if totalSize db1 > maxSizeBytes cfg then evictLoop cfg db1
  else db1

/-- Model of `CacheDatabase.setEntry` (`INSERT OR REPLACE` on the primary
key). -/
def setEntry (db : CacheDb) (e : CEntry) : CacheDb :=
  ⟨e :: db.entries.filter (fun r => ! (r.key == e.key))⟩

/-- Model of `IndexCache.set`: upsert the row, then
`enforceStorageLimits()` (logging and the swallowed try/catch elided — both
steps are total here). -/
def cacheSet (cfg : CacheCfg) (db : CacheDb) (e : CEntry) : CacheDb :=
  enforceStorageLimits cfg (setEntry db e)

/-! ## Merkle change detection (`MerkleTreeManager`, unnamed source part)

A snapshot carries the root hash and the `fileHashMap`, modelled as an
association list of `(path, hash)` pairs (the per-entry `metadata` object
is not consulted by the comparison and is elided). JavaScript objects have
unique keys; theorems that need this take a `nodupKeys` hypothesis. -/

structure MerkleSnapshot where
  version : String
  rootHash : String
  fileHashMap : List (String × String)
deriving DecidableEq, Repr

inductive ChangeType where
  | added
  | modified
  | deleted
deriving DecidableEq, Repr

structure ChangeRec where
  path : String
  changeType : ChangeType
  oldHash : Option String
  newHash : Option String
deriving DecidableEq, Repr

structure ChangeResult where
  hasChanges : Bool
  changeKind : String
  changedFiles : List ChangeRec
deriving DecidableEq, Repr

/-- `oldMap[filePath]` on the association-list model. -/
def lookupHash (m : List (String × String)) (p : String) : Option String :=
  (m.find? (fun pe => pe.1 == p)).map Prod.snd

/-- Keys of a file-hash map are pairwise distinct (JavaScript object). -/
def nodupKeys (m : List (String × String)) : Prop :=
  (m.map Prod.fst).Nodup

instance (m : List (String × String)) : Decidable (nodupKeys m) := by
  unfold nodupKeys; infer_instance

/-- Model of `MerkleTreeManager.compareFileMaps(oldMap, newMap)`: walk the
new map collecting `added` (no old entry) and `modified` (different hash)
records, then walk the old map collecting `deleted` records; `hasChanges`
iff anything was collected. -/
def compareFileMaps (oldMap newMap : List (String × String)) : ChangeResult :=
  let changedNew := newMap.filterMap (fun pe =>
    match lookupHash oldMap pe.1 with
    | none => some ⟨pe.1, .added, none, some pe.2⟩
    | some oh =>
      if oh ≠ pe.2 then some ⟨pe.1, .modified, some oh, some pe.2⟩ else none)
  let changedDel := oldMap.filterMap (fun pe =>
    if lookupHash newMap pe.1 = none then some ⟨pe.1, .deleted, some pe.2, none⟩
    else none)
  let changed := changedNew ++ changedDel
  ⟨changed.length > 0, "file_changes", changed⟩

/-- The initial-build result `detectChanges` returns when there is no
usable previous state: every current file is listed as added. -/
def initialBuildResult (cur : MerkleSnapshot) : ChangeResult :=
  ⟨true, "initial_build", cur.fileHashMap.map (fun pe => ⟨pe.1, .added, none, some pe.2⟩)⟩

/-- Model of `MerkleTreeManager.detectChanges()` given the loaded previous
state and the freshly built current state: no previous state gives the
initial-build diff; equal root hashes short-circuit to the empty diff;
otherwise the file maps are compared. -/
def detectChanges (lastState : Option MerkleSnapshot) (cur : MerkleSnapshot) :
    ChangeResult :=
  match lastState with
  | none => initialBuildResult cur
  | some l =>
    if cur.rootHash = l.rootHash then ⟨false, "no_changes", []⟩
    else compareFileMaps l.fileHashMap cur.fileHashMap

/-- Model of `MerkleTreeManager.loadLastState()` outcome handling: a read
or parse failure (the catch arm) leaves `lastState = null` after a
warning; a parsed snapshot is kept only when its `version` is `'2.0'`. -/
def loadLastState (parsed : Except String MerkleSnapshot) : Option MerkleSnapshot :=
  match parsed with
  | .error _ => none
  | .ok s => if s.version = "2.0" then some s else none

/-! ## File-status derivation (`progressTracker._updateFileStatusByChunks`) -/

inductive ChunkStatus where
  | pending
  | processing
  | completed
  | failed
deriving DecidableEq, Repr

/-- Model of the per-file recomputation in `_updateFileStatusByChunks`,
applied to the statuses of one file's chunks: the source counts
`completed`, `failed` and `processing` chunks (the switch ignores
`pending`) and then derives the file status. -/
def deriveFileStatus (l : List ChunkStatus) : ChunkStatus :=
  let total := l.length
  let completed := l.countP (· == .completed)
  let failed := l.countP (· == .failed)
  let processing := l.countP (· == .processing)
  if processing > 0 then .processing
  else if completed = total then .completed
  else if failed > 0 ∧ completed + failed = total then .failed
  else .pending

/-- Modelled from the spec's derivation rule of claim C9, for the
refinement comparison: processing if any chunk is processing; otherwise
completed if all chunks are completed; otherwise failed if at least one
chunk is failed and no chunk is processing; otherwise pending. -/
def claimedDeriveRule (l : List ChunkStatus) : ChunkStatus :=
  if l.any (· == .processing) then .processing
  else if l.all (· == .completed) then .completed
  else if l.any (· == .failed) && !(l.any (· == .processing)) then .failed
  else .pending

/-- The corrected derivation rule: `failed` requires every chunk to be
terminal (completed or failed), not merely the absence of processing
chunks. -/
def amendedDeriveRule (l : List ChunkStatus) : ChunkStatus :=
  if l.any (· == .processing) then .processing
  else if l.all (· == .completed) then .completed
  else if l.any (· == .failed) && l.all (fun s => s == .completed || s == .failed) then
    .failed
  else .pending

/-! ## `CodeChunker.processWorkspace` control flow (`IncrementalProcessor.js`)

Each awaited collaborator that can throw is a field of `WorkspaceEnv`
returning `Except JsError`; awaits wrapped in their own try/catch in the
source (per-file cache loads, the fire-and-forget cache stores, the final
cache-statistics block) swallow their errors and cannot affect the result,
so they appear only where their value is used. Progress-tracker updates
and logging have no effect on the returned value and are elided. -/

structure JsError where
  message : String
deriving DecidableEq, Repr

deriving instance DecidableEq for Except

structure ScanResult where
  fileList : List String
  fileHashes : String → String

structure WorkspaceEnv where
  md5Hex : String → String
  now : Nat
  ttlHours : Nat
  cacheDb : CacheDb
  initCache : Except JsError Unit
  scan : Except JsError ScanResult
  cacheGet : String → String → Except JsError (Option (List Chunk))
  dispatch : List String → Except JsError (List Chunk)
  cleanCollection : Except JsError Unit
  send : List Chunk → Except JsError Unit
  report : Except JsError Unit

/-- Model of `CodeChunker.processWorkspace`: initialize the cache, scan,
partition files through `batchCheck`, return `true` early when every file
is cached; otherwise dispatch the uncached files, load cached chunks
(errors swallowed), recreate the vector collection, send the chunks and
produce the final report, then return `true`. The outer catch rethrows, so
every stage failure surfaces as `Except.error`. -/
def processWorkspace (env : WorkspaceEnv) : Except JsError Bool :=
  match env.initCache with
  | .error e => .error e
  | .ok _ =>
    match env.scan with
    | .error e => .error e
    | .ok sr =>
      let files := sr.fileList.map (fun p => FileRef.mk p (sr.fileHashes p))
      let status := (batchCheck env.md5Hex env.now env.ttlHours env.cacheDb files).1
      let filesToProcess := status.uncached.map FileRef.path
      let cachedFiles := status.cached.map FileRef.path
      if filesToProcess.isEmpty then
        .ok true
      else
        match env.dispatch filesToProcess with
        | .error e => .error e
        | .ok processedChunks =>
          let cachedChunks := cachedFiles.foldl
            (fun acc p =>
              match env.cacheGet p (sr.fileHashes p) with
              | .ok (some cs) => acc ++ cs
              | _ => acc) []
          match env.cleanCollection with
          | .error e => .error e
          | .ok _ =>
            match env.send (processedChunks ++ cachedChunks) with
            | .error e => .error e
            | .ok _ =>
              match env.report with
              | .error e => .error e
              | .ok _ => .ok true

/-! ## Claim C3: the adjacent-merge rule -/

theorem nameWF_mergeTwo (c n : Cand) (hc : nameWF c) (hn : nameWF n) :
    nameWF (mergeTwo c n) := by
  unfold nameWF mergeTwo at *
  dsimp only
  split
  · exact hc
  · split
    · exact hn
    · simp

theorem mergeTwo_eq_spec (c n : Cand) (hc : nameWF c) (hn : nameWF n) :
    mergeTwo c n = mergeTwoSpec c n := by
  unfold mergeTwo mergeTwoSpec
  refine Cand.mk.injEq .. ▸ ⟨rfl, ?_, rfl, rfl, ?_⟩
  · split
    · rw [String.append_assoc]
    · rw [String.append_assoc]
      congr 1
  · unfold nameWF at hc hn
    cases hcn : c.name with
    | some s =>
      have hs : s ≠ "" := fun h => hc (hcn.trans (by rw [h]))
      simp [nameTruthy, hs]
    | none =>
      cases hnn : n.name with
      | some t =>
        have ht : t ≠ "" := fun h => hn (hnn.trans (by rw [h]))
        simp [nameTruthy, ht]
      | none => simp [nameTruthy]

theorem mergeGo_eq_spec (l : List Cand) :
    ∀ c : Cand, nameWF c → (∀ x ∈ l, nameWF x) →
      mergeGo c l = mergeSpecGo c l := by
  induction l with
  | nil => intro c _ _; rfl
  | cons n rest ih =>
    intro c hc hl
    have hn : nameWF n := hl n (List.mem_cons_self n rest)
    have hrest : ∀ x ∈ rest, nameWF x := fun x hx => hl x (List.mem_cons_of_mem n hx)
    unfold mergeGo mergeSpecGo
    split
    · rw [mergeTwo_eq_spec c n hc hn,
        ih (mergeTwoSpec c n) (mergeTwo_eq_spec c n hc hn ▸ nameWF_mergeTwo c n hc hn) hrest]
    · rw [ih n hn hrest]

theorem mem_insertByStart (x y : Cand) (l : List Cand) :
    y ∈ insertByStart x l → y = x ∨ y ∈ l := by
  induction l with
  | nil => intro h; simp [insertByStart] at h; exact Or.inl h
  | cons z zs ih =>
    intro h
    unfold insertByStart at h
    split at h
    · rcases List.mem_cons.1 h with h | h
      · exact Or.inr (h ▸ List.mem_cons_self z zs)
      · rcases ih h with h | h
        · exact Or.inl h
        · exact Or.inr (List.mem_cons_of_mem z h)
    · rcases List.mem_cons.1 h with h | h
      · exact Or.inl h
      · exact Or.inr h

theorem mem_sortByStartLine (y : Cand) (l : List Cand) :
    y ∈ sortByStartLine l → y ∈ l := by
  induction l with
  | nil => intro h; simp [sortByStartLine] at h
  | cons z zs ih =>
    intro h
    rcases mem_insertByStart z y (sortByStartLine zs) h with h | h
    · exact h ▸ List.mem_cons_self z zs
    · exact List.mem_cons_of_mem z (ih h)

/-- C3. In the adjacent-merge pass, candidates sorted by `startLine`
ascending are walked pairwise; two candidates merge exactly when they have
the same type and `next.startLine ≤ current.endLine + 2`; the merged
content is the first content, then — when there is a line gap — that many
newlines, then the second content; the merged chunk keeps the earlier name
when present, otherwise the later one. Stated as: the source translation
`mergeAdjacentChunks` coincides with `mergeAdjacentSpec`, which is built
verbatim from the spec's description, on every candidate list whose names
are absent-or-non-empty (the spec's data model for the optional `name`). -/
theorem mergeAdjacentChunks_matches_spec (cs : List Cand)
    (h : ∀ c ∈ cs, nameWF c) :
    mergeAdjacentChunks cs = mergeAdjacentSpec cs := by
  unfold mergeAdjacentChunks mergeAdjacentSpec
  cases hs : sortByStartLine cs with
  | nil => rfl
  | cons c rest =>
    have hmem : ∀ x ∈ sortByStartLine cs, nameWF x :=
      fun x hx => h x (mem_sortByStartLine x cs hx)
    rw [hs] at hmem
    exact mergeGo_eq_spec rest c (hmem c (List.mem_cons_self c rest))
      (fun x hx => hmem x (List.mem_cons_of_mem c hx))

def candF1 : Cand := ⟨"function", "def f():\n    pass", 1, 2, some "f"⟩
def candF2 : Cand := ⟨"function", "def g():\n    pass", 4, 5, none⟩

/-- Witness for C3 at a concrete two-candidate list. -/
theorem mergeAdjacentChunks_matches_spec_witness :
    mergeAdjacentChunks [candF1, candF2] = mergeAdjacentSpec [candF1, candF2] :=
  mergeAdjacentChunks_matches_spec [candF1, candF2] (by decide)

/-! ## Claim C4: separation of same-type chunks after merge -/

theorem mergeGo_head (l : List Cand) :
    ∀ c : Cand, ∃ h t, mergeGo c l = h :: t ∧
      h.startLine = c.startLine ∧ h.type = c.type := by
  induction l with
  | nil => intro c; exact ⟨c, [], rfl, rfl, rfl⟩
  | cons n rest ih =>
    intro c
    unfold mergeGo
    split
    · obtain ⟨h, t, he, hs, ht⟩ := ih (mergeTwo c n)
      exact ⟨h, t, he, hs, ht⟩
    · exact ⟨c, mergeGo n rest, rfl, rfl, rfl⟩

theorem mergeGo_chain (l : List Cand) :
    ∀ c : Cand,
      List.Chain' (fun a b : Cand => a.type = b.type → a.endLine + 2 < b.startLine)
        (mergeGo c l) := by
  induction l with
  | nil => intro c; simp [mergeGo]
  | cons n rest ih =>
    intro c
    unfold mergeGo
    split
    · exact ih (mergeTwo c n)
    · rename_i hcond
      obtain ⟨h, t, he, hs, ht⟩ := mergeGo_head rest n
      rw [he]
      refine List.chain'_cons.2 ⟨?_, he ▸ ih n⟩
      intro htype
      have hty : c.type = n.type := htype.trans ht
      have hle : ¬ n.startLine ≤ c.endLine + 2 := fun hle => hcond ⟨hty, hle⟩
      rw [hs]
      omega

/-- C4 (amended). Any two chunks adjacent in the emitted (startLine-sorted)
order with the same type have line ranges that do not overlap and are
separated by at least 3 lines; the original claim extended this to pairs
that are not adjacent in the sorted order, which the counterexample below
refutes. -/
theorem mergedChunks_separation (rp : String) (cs : List Cand) :
    List.Chain' (fun a b : Chunk => a.type = b.type → a.endLine + 2 < b.startLine)
      (pythonFormatChunks rp (mergeAdjacentChunks cs)) := by
  unfold pythonFormatChunks
  rw [List.chain'_map]
  unfold mergeAdjacentChunks
  cases sortByStartLine cs with
  | nil => simp
  | cons c rest => exact mergeGo_chain rest c

def candVarA : Cand := ⟨"variable", "a = 1", 1, 1, none⟩
def candOtherB : Cand := ⟨"other", "pass", 2, 2, none⟩
def candVarC : Cand := ⟨"variable", "b = 2", 3, 3, none⟩

/-- Counterexample to C4 as stated: two same-type candidates separated in
the sorted order by a candidate of a different type both survive the merge
pass while lying within 2 lines of each other. -/
theorem mergedChunks_separation_cex :
    mergeAdjacentChunks [candVarA, candOtherB, candVarC] =
      [candVarA, candOtherB, candVarC] ∧
    candVarA.type = candVarC.type ∧
    candVarC.startLine ≤ candVarA.endLine + 2 := by
  decide

/-! ## Claim C9: file status derived from chunk statuses -/

/-- Counterexample to C9 as stated: with one `failed` and one `pending`
chunk (and none `processing`), the source derives `pending`, while the
claimed rule demands `failed`. -/
theorem deriveFileStatus_claim_cex :
    deriveFileStatus [ChunkStatus.failed, ChunkStatus.pending] = ChunkStatus.pending ∧
    claimedDeriveRule [ChunkStatus.failed, ChunkStatus.pending] = ChunkStatus.failed ∧
    ChunkStatus.pending ≠ ChunkStatus.failed := by
  decide

/-- C9 (amended). Whenever a chunk status update is recorded, the file's
derived status is: `processing` if any chunk is processing; otherwise
`completed` if all chunks are completed; otherwise `failed` if at least one
chunk is failed and every chunk is terminal (completed or failed);
otherwise `pending`. -/
theorem deriveFileStatus_amended (l : List ChunkStatus) :
    deriveFileStatus l = amendedDeriveRule l := by
  have hsum : l.countP (· == ChunkStatus.completed) + l.countP (· == ChunkStatus.failed) =
      l.countP (fun s => s == ChunkStatus.completed || s == ChunkStatus.failed) := by
    induction l with
    | nil => rfl
    | cons s rest ih => cases s <;> simp [List.countP_cons, ih] <;> omega
  simp only [deriveFileStatus, amendedDeriveRule]
  by_cases hp : l.any (· == ChunkStatus.processing) = true
  · rw [if_pos (List.countP_pos_iff.2 (List.any_eq_true.1 hp)), if_pos hp]
  · have hp' : ¬ 0 < l.countP (· == ChunkStatus.processing) :=
      fun h => hp (List.any_eq_true.2 (List.countP_pos_iff.1 h))
    rw [if_neg hp', if_neg hp]
    by_cases hc : l.all (· == ChunkStatus.completed) = true
    · rw [if_pos (List.countP_eq_length.2 (List.all_eq_true.1 hc)), if_pos hc]
    · have hc' : ¬ l.countP (· == ChunkStatus.completed) = l.length :=
        fun h => hc (List.all_eq_true.2 (List.countP_eq_length.1 h))
      rw [if_neg hc', if_neg hc]
      by_cases hf : (l.any (· == ChunkStatus.failed) &&
          l.all (fun s => s == ChunkStatus.completed || s == ChunkStatus.failed)) = true
      · have h1 : l.any (· == ChunkStatus.failed) = true ∧
            l.all (fun s => s == ChunkStatus.completed || s == ChunkStatus.failed) = true := by
          simpa using hf
        refine Eq.trans (if_pos ?_) (if_pos hf).symm
        exact ⟨List.countP_pos_iff.2 (List.any_eq_true.1 h1.1),
          hsum.trans (List.countP_eq_length.2 (List.all_eq_true.1 h1.2))⟩
      · refine Eq.trans (if_neg ?_) (if_neg hf).symm
        rintro ⟨ha, hb⟩
        apply hf
        have h2 : l.any (· == ChunkStatus.failed) = true ∧
            l.all (fun s => s == ChunkStatus.completed || s == ChunkStatus.failed) = true :=
          ⟨List.any_eq_true.2 (List.countP_pos_iff.1 ha),
           List.all_eq_true.2 (List.countP_eq_length.1 (hsum ▸ hb))⟩
        simpa using h2

/-! ## Claim C2: the result discipline of `processWorkspace` -/

def oneFileScan : ScanResult := ⟨["a.py"], fun _ => "h1"⟩

def dispatchCrashEnv : WorkspaceEnv :=
  { md5Hex := fun s => s
    now := 0
    ttlHours := 1
    cacheDb := ⟨[]⟩
    initCache := .ok ()
    scan := .ok oneFileScan
    cacheGet := fun _ _ => .ok none
    dispatch := fun _ => .error ⟨"dispatcher crashed"⟩
    cleanCollection := .ok ()
    send := fun _ => .ok ()
    report := .ok () }

/-- Counterexample to C2 as stated: when the dispatcher crashes,
`processWorkspace` does not return `false` — the error propagates to the
caller as a thrown exception (the catch block rethrows). -/
theorem processWorkspace_claim_cex :
    processWorkspace dispatchCrashEnv = .error ⟨"dispatcher crashed"⟩ ∧
    processWorkspace dispatchCrashEnv ≠ .ok false := by
  decide

/-- C2 (amended). `processWorkspace` returns `true` whenever the run
completes — both through the all-files-cached early return and through the
full dispatch-and-send path, regardless of how many chunks the sink
accepted — and it never returns `false`: a crash in any awaited stage
surfaces as a thrown error instead. -/
theorem processWorkspace_never_false (env : WorkspaceEnv) :
    processWorkspace env = .ok true ∨
      ∃ e, processWorkspace env = .error e := by
  unfold processWorkspace
  dsimp only
  repeat' split
  all_goals first
    | exact .inl rfl
    | exact .inr ⟨_, rfl⟩

/-! ## Claim C8: Merkle diff -/

theorem lookupHash_eq_none_iff (m : List (String × String)) (p : String) :
    lookupHash m p = none ↔ p ∉ m.map Prod.fst := by
  unfold lookupHash
  rw [Option.map_eq_none', List.find?_eq_none]
  constructor
  · intro h hp
    obtain ⟨pe, hpe, hfst⟩ := List.mem_map.1 hp
    exact absurd (beq_iff_eq.2 hfst) (by simpa using h pe hpe)
  · intro h pe hpe
    simp only [beq_iff_eq]
    intro hfst
    exact h (List.mem_map.2 ⟨pe, hpe, hfst⟩)

theorem lookupHash_some_mem (m : List (String × String)) (p h : String)
    (hl : lookupHash m p = some h) : (p, h) ∈ m := by
  unfold lookupHash at hl
  rw [Option.map_eq_some'] at hl
  obtain ⟨pe, hfind, hsnd⟩ := hl
  have hmem := List.mem_of_find?_eq_some hfind
  have hfst : pe.1 = p := by
    have := List.find?_some hfind
    simpa using this
  have : pe = (p, h) := Prod.ext hfst hsnd
  exact this ▸ hmem

theorem lookupHash_of_mem (m : List (String × String)) (p h : String)
    (hm : nodupKeys m) (hmem : (p, h) ∈ m) : lookupHash m p = some h := by
  induction m with
  | nil => exact absurd hmem (List.not_mem_nil _)
  | cons pe rest ih =>
    unfold nodupKeys at hm
    rw [List.map_cons, List.nodup_cons] at hm
    rcases List.mem_cons.1 hmem with heq | hmem'
    · unfold lookupHash
      rw [List.find?_cons_of_pos _ (by simp [← heq])]
      simp [← heq]
    · have hne : pe.1 ≠ p := by
        intro hfst
        exact hm.1 (List.mem_map.2 ⟨(p, h), hmem', (hfst ▸ rfl)⟩)
      unfold lookupHash at ih ⊢
      rw [List.find?_cons_of_neg _ (by simpa using hne)]
      exact ih (by exact hm.2) hmem'

theorem mem_compareFileMaps (om nm : List (String × String)) (r : ChangeRec) :
    r ∈ (compareFileMaps om nm).changedFiles ↔
      ((∃ pe ∈ nm, lookupHash om pe.1 = none ∧
          r = ⟨pe.1, .added, none, some pe.2⟩) ∨
       (∃ pe ∈ nm, ∃ oh, lookupHash om pe.1 = some oh ∧ oh ≠ pe.2 ∧
          r = ⟨pe.1, .modified, some oh, some pe.2⟩) ∨
       (∃ pe ∈ om, lookupHash nm pe.1 = none ∧
          r = ⟨pe.1, .deleted, some pe.2, none⟩)) := by
  unfold compareFileMaps
  dsimp only
  rw [List.mem_append, List.mem_filterMap, List.mem_filterMap]
  constructor
  · rintro (⟨pe, hpe, hf⟩ | ⟨pe, hpe, hf⟩)
    · cases hl : lookupHash om pe.1 with
      | none =>
        rw [hl] at hf
        dsimp only at hf
        exact Or.inl ⟨pe, hpe, hl, (Option.some_inj.1 hf).symm⟩
      | some oh =>
        rw [hl] at hf
        dsimp only at hf
        by_cases hne : oh ≠ pe.2
        · rw [if_pos hne] at hf
          exact Or.inr (Or.inl ⟨pe, hpe, oh, hl, hne, (Option.some_inj.1 hf).symm⟩)
        · rw [if_neg hne] at hf
          exact Option.noConfusion hf
    · by_cases hl : lookupHash nm pe.1 = none
      · rw [if_pos hl] at hf
        exact Or.inr (Or.inr ⟨pe, hpe, hl, (Option.some_inj.1 hf).symm⟩)
      · rw [if_neg hl] at hf
        exact Option.noConfusion hf
  · rintro (⟨pe, hpe, hl, hr⟩ | ⟨pe, hpe, oh, hl, hne, hr⟩ | ⟨pe, hpe, hl, hr⟩)
    · refine Or.inl ⟨pe, hpe, ?_⟩
      rw [hl]
      dsimp only
      rw [hr]
    · refine Or.inl ⟨pe, hpe, ?_⟩
      rw [hl]
      dsimp only
      rw [if_pos hne, hr]
    · refine Or.inr ⟨pe, hpe, ?_⟩
      rw [if_pos hl, hr]

/-- C8. `detectChanges` short-circuits to the empty diff when the two root
hashes are equal; a corrupt previous snapshot loads as `none` and yields
the initial-build diff listing every current file as `added`; otherwise the
changed-file list is exactly the map difference of the two `fileHashMap`s:
`added` records are the paths present only in the current map, `modified`
the paths present in both with different hashes, and `deleted` (the spec's
`removed`) the paths present only in the previous map. -/
theorem detectChanges_spec (l cur : MerkleSnapshot) (p : String) (err : String)
    (hnew : nodupKeys cur.fileHashMap) :
    (cur.rootHash = l.rootHash →
      (detectChanges (some l) cur).changedFiles = [] ∧
      (detectChanges (some l) cur).hasChanges = false) ∧
    (detectChanges (loadLastState (.error err)) cur = initialBuildResult cur ∧
      (initialBuildResult cur).changedFiles =
        cur.fileHashMap.map (fun pe => ⟨pe.1, .added, none, some pe.2⟩)) ∧
    (cur.rootHash ≠ l.rootHash →
      (((∃ r ∈ (detectChanges (some l) cur).changedFiles,
            r.path = p ∧ r.changeType = .added) ↔
          (p ∈ cur.fileHashMap.map Prod.fst ∧ p ∉ l.fileHashMap.map Prod.fst)) ∧
       ((∃ r ∈ (detectChanges (some l) cur).changedFiles,
            r.path = p ∧ r.changeType = .modified) ↔
          (∃ oh nh, lookupHash l.fileHashMap p = some oh ∧
            lookupHash cur.fileHashMap p = some nh ∧ oh ≠ nh)) ∧
       ((∃ r ∈ (detectChanges (some l) cur).changedFiles,
            r.path = p ∧ r.changeType = .deleted) ↔
          (p ∈ l.fileHashMap.map Prod.fst ∧ p ∉ cur.fileHashMap.map Prod.fst)))) := by
  refine ⟨?_, ⟨rfl, rfl⟩, ?_⟩
  · intro hroot
    unfold detectChanges
    dsimp only
    rw [if_pos hroot]
    exact ⟨rfl, rfl⟩
  · intro hroot
    have hdet : detectChanges (some l) cur =
        compareFileMaps l.fileHashMap cur.fileHashMap := by
      unfold detectChanges
      dsimp only
      rw [if_neg hroot]
    rw [hdet]
    refine ⟨?_, ?_, ?_⟩
    · constructor
      · rintro ⟨r, hr, hpath, htype⟩
        rcases (mem_compareFileMaps _ _ r).1 hr with
          ⟨pe, hpe, hl, hre⟩ | ⟨pe, hpe, oh, hl, hne, hre⟩ | ⟨pe, hpe, hl, hre⟩
        · subst hre
          dsimp at hpath
          subst hpath
          exact ⟨List.mem_map.2 ⟨pe, hpe, rfl⟩, (lookupHash_eq_none_iff _ _).1 hl⟩
        · subst hre; simp at htype
        · subst hre; simp at htype
      · rintro ⟨hin, hout⟩
        obtain ⟨pe, hpe, hfst⟩ := List.mem_map.1 hin
        refine ⟨⟨pe.1, .added, none, some pe.2⟩,
          (mem_compareFileMaps _ _ _).2
            (Or.inl ⟨pe, hpe, (lookupHash_eq_none_iff _ _).2 (hfst ▸ hout), rfl⟩),
          hfst, rfl⟩
    · constructor
      · rintro ⟨r, hr, hpath, htype⟩
        rcases (mem_compareFileMaps _ _ r).1 hr with
          ⟨pe, hpe, hl, hre⟩ | ⟨pe, hpe, oh, hl, hne, hre⟩ | ⟨pe, hpe, hl, hre⟩
        · subst hre; simp at htype
        · subst hre
          dsimp at hpath
          subst hpath
          exact ⟨oh, pe.2, hl, lookupHash_of_mem _ _ _ hnew hpe, hne⟩
        · subst hre; simp at htype
      · rintro ⟨oh, nh, hlo, hln, hne⟩
        have hmem := lookupHash_some_mem _ _ _ hln
        refine ⟨⟨p, .modified, some oh, some nh⟩,
          (mem_compareFileMaps _ _ _).2
            (Or.inr (Or.inl ⟨(p, nh), hmem, oh, hlo, hne, rfl⟩)),
          rfl, rfl⟩
    · constructor
      · rintro ⟨r, hr, hpath, htype⟩
        rcases (mem_compareFileMaps _ _ r).1 hr with
          ⟨pe, hpe, hl, hre⟩ | ⟨pe, hpe, oh, hl, hne, hre⟩ | ⟨pe, hpe, hl, hre⟩
        · subst hre; simp at htype
        · subst hre; simp at htype
        · subst hre
          dsimp at hpath
          subst hpath
          exact ⟨List.mem_map.2 ⟨pe, hpe, rfl⟩, (lookupHash_eq_none_iff _ _).1 hl⟩
      · rintro ⟨hin, hout⟩
        obtain ⟨pe, hpe, hfst⟩ := List.mem_map.1 hin
        refine ⟨⟨pe.1, .deleted, some pe.2, none⟩,
          (mem_compareFileMaps _ _ _).2
            (Or.inr (Or.inr ⟨pe, hpe, (lookupHash_eq_none_iff _ _).2 (hfst ▸ hout), rfl⟩)),
          hfst, rfl⟩

def snapPrev : MerkleSnapshot := ⟨"2.0", "r1", [("a.py", "1")]⟩
def snapCurSame : MerkleSnapshot := ⟨"2.0", "r1", [("a.py", "1")]⟩

/-- Witness for C8: with equal root hashes the diff is empty. -/
theorem detectChanges_spec_witness :
    (detectChanges (some snapPrev) snapCurSame).changedFiles = [] ∧
    (detectChanges (some snapPrev) snapCurSame).hasChanges = false :=
  (detectChanges_spec snapPrev snapCurSame "a.py" "corrupt" (by decide)).1 rfl

/-! ## Claim C10: `batchCheck` partitions its input -/

theorem getEntry_deleteEntry_ne (db : CacheDb) (k k' : String) (h : k' ≠ k) :
    getEntry (deleteEntry db k) k' = getEntry db k' := by
  unfold getEntry deleteEntry
  dsimp only
  induction db.entries with
  | nil => rfl
  | cons r rest ih =>
    by_cases hk : r.key = k
    · rw [List.filter_cons_of_neg (by simp [hk]),
        List.find?_cons_of_neg _ (by
          simp only [hk, beq_iff_eq]
          exact fun he => h he.symm)]
      exact ih
    · rw [List.filter_cons_of_pos (by simp [hk])]
      by_cases hk' : r.key = k'
      · rw [List.find?_cons_of_pos _ (by simp [hk']),
          List.find?_cons_of_pos _ (by simp [hk'])]
      · rw [List.find?_cons_of_neg _ (by simp [hk']),
          List.find?_cons_of_neg _ (by simp [hk'])]
        exact ih

theorem getEntry_deleteEntry_self (db : CacheDb) (k : String) :
    getEntry (deleteEntry db k) k = none := by
  unfold getEntry deleteEntry
  dsimp only
  rw [List.find?_eq_none]
  intro e he
  have := (List.mem_filter.1 he).2
  simpa using this

theorem validInDb_cacheHas (md5Hex : String → String) (now ttlHours : Nat)
    (db : CacheDb) (p h : String) (f : FileRef) :
    validInDb md5Hex now ttlHours (cacheHas md5Hex now ttlHours db p h).2 f =
      validInDb md5Hex now ttlHours db f := by
  unfold cacheHas
  dsimp only
  cases hg : getEntry db (generateCacheKey md5Hex p h) with
  | none => rfl
  | some e =>
    dsimp only
    by_cases hex : isExpired now ttlHours e.createdAt = true
    · rw [if_pos hex]
      dsimp only
      unfold validInDb
      by_cases hk : generateCacheKey md5Hex f.path f.hash = generateCacheKey md5Hex p h
      · rw [hk, getEntry_deleteEntry_self, hg]
        simp [hex]
      · rw [getEntry_deleteEntry_ne db _ _ hk]
    · rw [if_neg hex]

theorem cacheHas_fst (md5Hex : String → String) (now ttlHours : Nat)
    (db : CacheDb) (f : FileRef) :
    (cacheHas md5Hex now ttlHours db f.path f.hash).1 =
      validInDb md5Hex now ttlHours db f := by
  unfold cacheHas validInDb
  dsimp only
  cases getEntry db (generateCacheKey md5Hex f.path f.hash) with
  | none => rfl
  | some e =>
    dsimp only
    by_cases hex : isExpired now ttlHours e.createdAt = true
    · rw [if_pos hex]
      simp [hex]
    · rw [if_neg hex]
      have hx : isExpired now ttlHours e.createdAt = false := by
        simpa using hex
      simp [hx]

theorem cacheHas_snd_sub (md5Hex : String → String) (now ttlHours : Nat)
    (db : CacheDb) (p h : String) :
    ∀ e ∈ (cacheHas md5Hex now ttlHours db p h).2.entries, e ∈ db.entries := by
  unfold cacheHas
  dsimp only
  cases getEntry db (generateCacheKey md5Hex p h) with
  | none => exact fun e he => he
  | some e0 =>
    dsimp only
    by_cases hex : isExpired now ttlHours e0.createdAt = true
    · rw [if_pos hex]
      exact fun e he => (List.mem_filter.1 he).1
    · rw [if_neg hex]
      exact fun e he => he

theorem cacheHas_snd_nodup (md5Hex : String → String) (now ttlHours : Nat)
    (db : CacheDb) (p h : String)
    (hnd : (db.entries.map CEntry.key).Nodup) :
    ((cacheHas md5Hex now ttlHours db p h).2.entries.map CEntry.key).Nodup := by
  unfold cacheHas
  dsimp only
  cases getEntry db (generateCacheKey md5Hex p h) with
  | none => exact hnd
  | some e0 =>
    dsimp only
    by_cases hex : isExpired now ttlHours e0.createdAt = true
    · rw [if_pos hex]
      exact hnd.sublist ((List.filter_sublist _).map CEntry.key)
    · rw [if_neg hex]
      exact hnd

theorem cacheHas_snd_dropped (md5Hex : String → String) (now ttlHours : Nat)
    (db : CacheDb) (p h : String)
    (hnd : (db.entries.map CEntry.key).Nodup) :
    ∀ e ∈ db.entries, e ∉ (cacheHas md5Hex now ttlHours db p h).2.entries →
      isExpired now ttlHours e.createdAt = true := by
  unfold cacheHas
  dsimp only
  cases hg : getEntry db (generateCacheKey md5Hex p h) with
  | none => exact fun e he hne => absurd he hne
  | some e0 =>
    dsimp only
    by_cases hex : isExpired now ttlHours e0.createdAt = true
    · rw [if_pos hex]
      intro e he hne
      have hkey : e.key = generateCacheKey md5Hex p h := by
        by_contra hk
        exact hne (List.mem_filter.2 ⟨he, by simpa using hk⟩)
      have he0 : e0 ∈ db.entries := List.mem_of_find?_eq_some hg
      have hk0 : e0.key = generateCacheKey md5Hex p h := by
        have := List.find?_some hg
        simpa using this
      have : e = e0 :=
        List.inj_on_of_nodup_map hnd he he0 (hkey.trans hk0.symm)
      rw [this]
      exact hex
    · rw [if_neg hex]
      exact fun e he hne => absurd he hne

theorem batchCheck_go (md5Hex : String → String) (now ttlHours : Nat)
    (db0 : CacheDb) (files : List FileRef) :
    ∀ (res : BatchResult) (db : CacheDb),
      (∀ f, validInDb md5Hex now ttlHours db f = validInDb md5Hex now ttlHours db0 f) →
      (∀ e ∈ db.entries, e ∈ db0.entries) →
      ((db.entries.map CEntry.key).Nodup) →
      (∀ e ∈ db0.entries, e ∉ db.entries → isExpired now ttlHours e.createdAt = true) →
      (files.foldl (batchCheckStep md5Hex now ttlHours) (res, db)).1.cached =
          res.cached ++ files.filter (fun f => validInDb md5Hex now ttlHours db0 f) ∧
      (files.foldl (batchCheckStep md5Hex now ttlHours) (res, db)).1.uncached =
          res.uncached ++ files.filter (fun f => ! validInDb md5Hex now ttlHours db0 f) ∧
      (files.foldl (batchCheckStep md5Hex now ttlHours) (res, db)).1.expired =
          res.expired ∧
      (∀ e ∈ (files.foldl (batchCheckStep md5Hex now ttlHours) (res, db)).2.entries,
          e ∈ db0.entries) ∧
      (∀ e ∈ db0.entries,
          e ∉ (files.foldl (batchCheckStep md5Hex now ttlHours) (res, db)).2.entries →
          isExpired now ttlHours e.createdAt = true) := by
  induction files with
  | nil =>
    intro res db hv hsub hnd hdrop
    exact ⟨(List.append_nil _).symm, (List.append_nil _).symm, rfl, hsub, hdrop⟩
  | cons f fs ih =>
    intro res db hv hsub hnd hdrop
    rw [List.foldl_cons]
    have hstep : batchCheckStep md5Hex now ttlHours (res, db) f =
        (if validInDb md5Hex now ttlHours db0 f then
          ({ res with cached := res.cached ++ [f] },
            (cacheHas md5Hex now ttlHours db f.path f.hash).2)
        else
          ({ res with uncached := res.uncached ++ [f] },
            (cacheHas md5Hex now ttlHours db f.path f.hash).2)) := by
      unfold batchCheckStep
      rw [cacheHas_fst, hv f]
    have hv' : ∀ g, validInDb md5Hex now ttlHours
        (cacheHas md5Hex now ttlHours db f.path f.hash).2 g =
        validInDb md5Hex now ttlHours db0 g :=
      fun g => (validInDb_cacheHas md5Hex now ttlHours db f.path f.hash g).trans (hv g)
    have hsub' : ∀ e ∈ (cacheHas md5Hex now ttlHours db f.path f.hash).2.entries,
        e ∈ db0.entries :=
      fun e he => hsub e (cacheHas_snd_sub md5Hex now ttlHours db f.path f.hash e he)
    have hnd' := cacheHas_snd_nodup md5Hex now ttlHours db f.path f.hash hnd
    have hdrop' : ∀ e ∈ db0.entries,
        e ∉ (cacheHas md5Hex now ttlHours db f.path f.hash).2.entries →
        isExpired now ttlHours e.createdAt = true := by
      intro e he hne
      by_cases hmem : e ∈ db.entries
      · exact cacheHas_snd_dropped md5Hex now ttlHours db f.path f.hash hnd e hmem hne
      · exact hdrop e he hmem
    by_cases hvf : validInDb md5Hex now ttlHours db0 f
    · rw [hstep, if_pos hvf]
      obtain ⟨h1, h2, h3, h4, h5⟩ :=
        ih { res with cached := res.cached ++ [f] } _ hv' hsub' hnd' hdrop'
      refine ⟨?_, ?_, h3, h4, h5⟩
      · rw [h1]
        dsimp only
        rw [List.filter_cons_of_pos (by simpa using hvf), List.append_assoc]
        rfl
      · rw [h2]
        dsimp only
        rw [List.filter_cons_of_neg (by simpa using hvf)]
    · rw [hstep, if_neg hvf]
      obtain ⟨h1, h2, h3, h4, h5⟩ :=
        ih { res with uncached := res.uncached ++ [f] } _ hv' hsub' hnd' hdrop'
      refine ⟨?_, ?_, h3, h4, h5⟩
      · rw [h1]
        dsimp only
        rw [List.filter_cons_of_neg (by simpa using hvf)]
      · rw [h2]
        dsimp only
        rw [List.filter_cons_of_pos (by simpa using hvf), List.append_assoc]
        rfl

/-- C10. `batchCheck` always returns `expired = []`; every input file with
a missing or expired entry lands in `uncached` (an expired entry is
deleted by the check: the resulting store only drops expired rows), every
file with a live entry lands in `cached`, and the two lists partition the
input in order. -/
theorem batchCheck_partition (md5Hex : String → String) (now ttlHours : Nat)
    (db : CacheDb) (files : List FileRef)
    (hnd : (db.entries.map CEntry.key).Nodup) :
    (batchCheck md5Hex now ttlHours db files).1.expired = [] ∧
    (batchCheck md5Hex now ttlHours db files).1.cached =
      files.filter (fun f => validInDb md5Hex now ttlHours db f) ∧
    (batchCheck md5Hex now ttlHours db files).1.uncached =
      files.filter (fun f => ! validInDb md5Hex now ttlHours db f) ∧
    (∀ e ∈ (batchCheck md5Hex now ttlHours db files).2.entries, e ∈ db.entries) ∧
    (∀ e ∈ db.entries, e ∉ (batchCheck md5Hex now ttlHours db files).2.entries →
      isExpired now ttlHours e.createdAt = true) := by
  obtain ⟨h1, h2, h3, h4, h5⟩ :=
    batchCheck_go md5Hex now ttlHours db files ⟨[], [], []⟩ db
      (fun _ => rfl) (fun e he => he) hnd (fun e he hne => absurd he hne)
  refine ⟨h3, ?_, ?_, h4, h5⟩
  · rw [show (batchCheck md5Hex now ttlHours db files) =
      files.foldl (batchCheckStep md5Hex now ttlHours) (⟨[], [], []⟩, db) from rfl, h1]
    rfl
  · rw [show (batchCheck md5Hex now ttlHours db files) =
      files.foldl (batchCheckStep md5Hex now ttlHours) (⟨[], [], []⟩, db) from rfl, h2]
    rfl

def dbOneEntry : CacheDb := ⟨[⟨"a.py:h1", "a.py", "h1", 10, 0, 0⟩]⟩

/-- Witness for C10 at a one-entry store and a one-file batch. -/
theorem batchCheck_partition_witness :
    (batchCheck (fun s => s) 0 1 dbOneEntry [⟨"a.py", "h1"⟩]).1.expired = [] :=
  (batchCheck_partition (fun s => s) 0 1 dbOneEntry [⟨"a.py", "h1"⟩] (by decide)).1

/-! ## Claim C7: storage-limit enforcement -/

theorem deleteOldestEntries_count (db : CacheDb) (n : Nat) :
    entryCount (deleteOldestEntries db n) = entryCount db - n := by
  simp [deleteOldestEntries, entryCount, List.length_drop, length_sortByAccess]

theorem targetSize_le_maxSizeBytes (cfg : CacheCfg) :
    targetSize cfg ≤ maxSizeBytes cfg := by
  unfold targetSize
  calc (4 * maxSizeBytes cfg) / 5 ≤ (5 * maxSizeBytes cfg) / 5 :=
        Nat.div_le_div_right (by omega)
    _ = maxSizeBytes cfg := Nat.mul_div_cancel_left _ (by omega)

theorem evictLoop_total (cfg : CacheCfg) :
    ∀ n (db : CacheDb), entryCount db ≤ n →
      totalSize (evictLoop cfg db) ≤ targetSize cfg := by
  intro n
  induction n with
  | zero =>
    intro db h
    have hempty : db.entries = [] := by
      have := Nat.le_zero.1 h
      unfold entryCount at this
      exact List.length_eq_zero.1 this
    have htot : totalSize db = 0 := by simp [totalSize, hempty]
    unfold evictLoop
    rw [if_pos (by omega)]
    omega
  | succ n ih =>
    intro db h
    unfold evictLoop
    by_cases h1 : totalSize db ≤ targetSize cfg
    · rw [if_pos h1]
      exact h1
    · rw [if_neg h1]
      have hne : db.entries ≠ [] := by
        intro he
        exact h1 (by simp [totalSize, he])
      have hpos : 0 < entryCount db := by
        unfold entryCount
        exact List.length_pos.2 hne
      have hlt : entryCount (deleteOldestEntries db 100) < entryCount db := by
        rw [deleteOldestEntries_count]
        omega
      rw [if_neg (by omega)]
      exact ih _ (by omega)

theorem evictLoop_count (cfg : CacheCfg) :
    ∀ n (db : CacheDb), entryCount db ≤ n →
      entryCount (evictLoop cfg db) ≤ entryCount db := by
  intro n
  induction n with
  | zero =>
    intro db h
    unfold evictLoop
    by_cases h1 : totalSize db ≤ targetSize cfg
    · rw [if_pos h1]
    · rw [if_neg h1]
      have hempty : db.entries = [] := by
        have := Nat.le_zero.1 h
        unfold entryCount at this
        exact List.length_eq_zero.1 this
      exact absurd (by simp [totalSize, hempty] : totalSize db ≤ targetSize cfg) h1
  | succ n ih =>
    intro db h
    unfold evictLoop
    by_cases h1 : totalSize db ≤ targetSize cfg
    · rw [if_pos h1]
    · rw [if_neg h1]
      have hne : db.entries ≠ [] := by
        intro he
        exact h1 (by simp [totalSize, he])
      have hpos : 0 < entryCount db := by
        unfold entryCount
        exact List.length_pos.2 hne
      have hlt : entryCount (deleteOldestEntries db 100) < entryCount db := by
        rw [deleteOldestEntries_count]
        omega
      rw [if_neg (by omega)]
      have := ih (deleteOldestEntries db 100) (by omega)
      omega

theorem enforceStorageLimits_bounds (cfg : CacheCfg) (db : CacheDb) :
    entryCount (enforceStorageLimits cfg db) ≤ cfg.maxEntries ∧
    totalSize (enforceStorageLimits cfg db) ≤ maxSizeBytes cfg := by
  unfold enforceStorageLimits
  set db1 := if entryCount db > cfg.maxEntries then
      deleteOldestEntries db (entryCount db - cfg.maxEntries)
    else db with hdb1
  have hcount1 : entryCount db1 ≤ cfg.maxEntries ∨
      (entryCount db1 = entryCount db ∧ entryCount db ≤ cfg.maxEntries) := by
    rw [hdb1]
    by_cases hc : entryCount db > cfg.maxEntries
    · rw [if_pos hc, deleteOldestEntries_count]
      omega
    · rw [if_neg hc]
      omega
  have hcount : entryCount db1 ≤ cfg.maxEntries := by
    rcases hcount1 with h | ⟨h1, h2⟩
    · exact h
    · omega
  by_cases hsize : totalSize db1 > maxSizeBytes cfg
  · rw [if_pos hsize]
    constructor
    · have := evictLoop_count cfg (entryCount db1) db1 le_rfl
      omega
    · have := evictLoop_total cfg (entryCount db1) db1 le_rfl
      have := targetSize_le_maxSizeBytes cfg
      omega
  · rw [if_neg hsize]
    exact ⟨hcount, by omega⟩

/-- C7 (amended). `enforceLimits` runs on every `set`; the entry-count pass
evicts the least-recently-accessed rows down to `maxEntries`, and the size
pass triggers only when the total stored bytes exceed `maxSizeBytes`
itself — not 0.8 × `maxSizeBytes` — and then evicts LRU batches until the
total is at most 0.8 × `maxSizeBytes`. Hence after any `set`: the entry
count is at most `maxEntries`, the total is at most `maxSizeBytes`, and a
store within both thresholds is left untouched (in particular one whose
total lies between 0.8 × `maxSizeBytes` and `maxSizeBytes` is not shrunk,
contrary to the original claim — see the counterexample). -/
theorem cacheSet_limits_amended (cfg : CacheCfg) (db : CacheDb) (e : CEntry) :
    entryCount (cacheSet cfg db e) ≤ cfg.maxEntries ∧
    totalSize (cacheSet cfg db e) ≤ maxSizeBytes cfg ∧
    (∀ d : CacheDb, ¬ entryCount d > cfg.maxEntries → ¬ totalSize d > maxSizeBytes cfg →
      enforceStorageLimits cfg d = d) := by
  refine ⟨(enforceStorageLimits_bounds cfg (setEntry db e)).1,
    (enforceStorageLimits_bounds cfg (setEntry db e)).2, ?_⟩
  intro d hc hs
  unfold enforceStorageLimits
  rw [if_neg hc, if_neg hs]

def cfgOneMB : CacheCfg := ⟨1, 10⟩
def bigEntry : CEntry := ⟨"k1", "a.py", "h1", 900000, 0, 0⟩

/-- Counterexample to C7 as stated: a `set` that leaves the store at
900000 bytes against `maxSizeBytes = 1048576` does not shrink it, although
900000 exceeds `0.8 × maxSizeBytes = 838860`. -/
theorem cacheSet_limits_cex :
    cacheSet cfgOneMB ⟨[]⟩ bigEntry = ⟨[bigEntry]⟩ ∧
    totalSize (cacheSet cfgOneMB ⟨[]⟩ bigEntry) = 900000 ∧
    targetSize cfgOneMB = 838860 ∧
    ¬ totalSize (cacheSet cfgOneMB ⟨[]⟩ bigEntry) ≤ targetSize cfgOneMB := by
  decide

/-! ## Claim C1: the 9216-byte content cap -/

/-- Byte size of a group of lines counted as the loop does: each line plus
its trailing newline. -/
def lineSizeSum (l : List String) : Nat :=
  (l.map (fun s => utf8Len s + 1)).sum

theorem strData_append (a b : String) : (a ++ b).data = a.data ++ b.data := by
  cases a
  cases b
  rfl

theorem utf8Len_append (a b : String) :
    utf8Len (a ++ b) = utf8Len a + utf8Len b := by
  unfold utf8Len
  rw [strData_append, List.map_append, List.sum_append]

theorem utf8Len_joinNl (l : List String) (hne : l ≠ []) :
    utf8Len (joinNl l) + 1 = lineSizeSum l := by
  induction l with
  | nil => exact absurd rfl hne
  | cons x rest ih =>
    cases rest with
    | nil => simp [joinNl, lineSizeSum]
    | cons y t =>
      have hx : utf8Len (joinNl (x :: y :: t)) =
          utf8Len x + 1 + utf8Len (joinNl (y :: t)) := by
        show utf8Len (x ++ "\n" ++ joinNl (y :: t)) = _
        rw [utf8Len_append, utf8Len_append]
        rfl
      have ihr := ih (by simp)
      unfold lineSizeSum at ihr ⊢
      rw [List.map_cons, List.sum_cons, ← ihr, hx]
      omega

theorem mkLineChunk_bound (cur : List String) (start1 : Nat) (fp lang : String)
    (maxB : Nat) (hinv : cur.length ≤ 1 ∨ lineSizeSum cur ≤ maxB) (hne : cur ≠ []) :
    (mkLineChunk cur start1 fp lang).startLine =
      (mkLineChunk cur start1 fp lang).endLine ∨
    utf8Len (mkLineChunk cur start1 fp lang).content + 1 ≤ maxB := by
  rcases hinv with hlen | hsum
  · left
    have h1 : cur.length = 1 := by
      rcases Nat.lt_or_ge cur.length 1 with h | h
      · exact absurd (List.length_eq_zero.1 (by omega)) hne
      · omega
    simp [mkLineChunk, h1]
  · right
    show utf8Len (joinNl cur) + 1 ≤ maxB
    rw [utf8Len_joinNl cur hne]
    exact hsum

theorem splitGo_bound (lpc maxB : Nat) (fp lang : String) :
    ∀ (lines : List String) (i : Nat) (cur : List String) (size start1 : Nat),
      size = lineSizeSum cur →
      (cur.length ≤ 1 ∨ size ≤ maxB) →
      ∀ c ∈ splitGo lpc maxB fp lang lines i cur size start1,
        c.startLine = c.endLine ∨ utf8Len c.content + 1 ≤ maxB := by
  intro lines
  induction lines with
  | nil =>
    intro i cur size start1 hsize hinv c hc
    unfold splitGo at hc
    by_cases hlen : cur.length > 0
    · rw [if_pos hlen] at hc
      have hne : cur ≠ [] := by
        intro he
        rw [he] at hlen
        simp at hlen
      rw [List.mem_singleton.1 hc]
      exact mkLineChunk_bound cur start1 fp lang maxB (hsize ▸ hinv) hne
    · rw [if_neg hlen] at hc
      exact absurd hc (List.not_mem_nil c)
  | cons line rest ih =>
    intro i cur size start1 hsize hinv c hc
    unfold splitGo at hc
    dsimp only at hc
    by_cases hcond : cur.length ≥ lpc ∨ size + (utf8Len line + 1) > maxB
    · rw [if_pos hcond] at hc
      rcases List.mem_append.1 hc with hc | hc
      · by_cases hlen : cur.length > 0
        · rw [if_pos hlen] at hc
          have hne : cur ≠ [] := by
            intro he
            rw [he] at hlen
            simp at hlen
          rw [List.mem_singleton.1 hc]
          exact mkLineChunk_bound cur start1 fp lang maxB (hsize ▸ hinv) hne
        · rw [if_neg hlen] at hc
          exact absurd hc (List.not_mem_nil c)
      · exact ih (i + 1) [line] (utf8Len line + 1) (i + 1)
          (by simp [lineSizeSum]) (Or.inl (by simp)) c hc
    · rw [if_neg hcond] at hc
      push_neg at hcond
      refine ih (i + 1) (cur ++ [line]) (size + (utf8Len line + 1)) start1 ?_ ?_ c hc
      · rw [hsize]
        unfold lineSizeSum
        rw [List.map_append, List.sum_append]
        simp
      · exact Or.inr hcond.2

/-- C1 (amended). Every chunk emitted by the line chunker either consists
of a single source line (its `startLine` equals its `endLine`) or has
content of UTF-8 byte length at most 9216; a single-line chunk can exceed
the cap only when that one line alone does. The AST chunkers perform no
size enforcement after the adjacent merge, so their chunks carry no such
bound — the counterexample below exhibits both an oversize line-chunker
chunk and an oversize merged AST chunk. -/
theorem lineChunker_size_amended (lpc : Nat) (fp lang content : String) (i : Nat)
    (h : i < (splitIntoChunks lpc fp lang content).length) :
    ((splitIntoChunks lpc fp lang content).get ⟨i, h⟩).startLine =
      ((splitIntoChunks lpc fp lang content).get ⟨i, h⟩).endLine ∨
    utf8Len (((splitIntoChunks lpc fp lang content).get ⟨i, h⟩).content) ≤ 9216 := by
  have hm : (splitIntoChunks lpc fp lang content).get ⟨i, h⟩ ∈
      splitIntoChunks lpc fp lang content := List.get_mem _ _ _
  have hb := splitGo_bound lpc 9216 fp lang (splitChar '\n' content) 0 [] 0 1
    rfl (Or.inl (by simp)) _ hm
  rcases hb with hb | hb
  · exact Or.inl hb
  · exact Or.inr (by omega)

/-- Witness for C1 (amended) at a two-line content. -/
theorem lineChunker_size_amended_witness :
    ((splitIntoChunks 15 "a.txt" "text" "a\nb").get ⟨0, by decide⟩).startLine =
      ((splitIntoChunks 15 "a.txt" "text" "a\nb").get ⟨0, by decide⟩).endLine ∨
    utf8Len (((splitIntoChunks 15 "a.txt" "text" "a\nb").get ⟨0, by decide⟩).content) ≤
      9216 :=
  lineChunker_size_amended 15 "a.txt" "text" "a\nb" 0 (by decide)

theorem utf8Len_replicate (n : Nat) (c : Char) :
    utf8Len (String.mk (List.replicate n c)) = n * c.utf8Size := by
  unfold utf8Len
  simp [List.map_replicate, List.sum_replicate, smul_eq_mul]

theorem splitCharAux_no_sep (sep : Char) :
    ∀ (l acc : List Char), (∀ c ∈ l, c ≠ sep) →
      splitCharAux sep l acc = [acc.reverse ++ l] := by
  intro l
  induction l with
  | nil => intro acc _; simp [splitCharAux]
  | cons c rest ih =>
    intro acc h
    unfold splitCharAux
    rw [if_neg (h c (List.mem_cons_self c rest))]
    rw [ih (c :: acc) (fun x hx => h x (List.mem_cons_of_mem _ hx))]
    simp

theorem splitChar_no_sep (sep : Char) (s : String)
    (h : ∀ c ∈ s.data, c ≠ sep) : splitChar sep s = [s] := by
  unfold splitChar
  rw [splitCharAux_no_sep sep s.data [] h]
  cases s
  simp

/-- A single 9217-byte line. -/
def bigLineA : String := String.mk (List.replicate 9217 'a')

/-- An extraction candidate whose content is 9217 bytes. -/
def bigCand : Cand := ⟨"class", bigLineA, 1, 300, some "C"⟩

theorem utf8Len_bigLineA : utf8Len bigLineA = 9217 := by
  unfold bigLineA
  rw [utf8Len_replicate]
  norm_num [show Char.utf8Size 'a' = 1 from by decide]

/-- Counterexample to C1 as stated: the line chunker emits a 9217-byte
chunk for a single 9217-byte line, and the Python AST chunker emits a
9217-byte chunk untouched after the adjacent merge — both above the
claimed 9216-byte cap. -/
theorem chunkSizeCap_cex :
    (splitIntoChunks 50 "f.txt" "text" bigLineA).map (fun c => utf8Len c.content) =
      [9217] ∧
    (pythonFormatChunks "a.py" (mergeAdjacentChunks [bigCand])).map
      (fun c => utf8Len c.content) = [9217] ∧
    ¬ (9217 ≤ 9216) := by
  have hnosep : ∀ c ∈ bigLineA.data, c ≠ '\n' := by
    intro c hc
    rw [show bigLineA.data = List.replicate 9217 'a' from rfl] at hc
    rw [List.eq_of_mem_replicate hc]
    decide
  refine ⟨?_, ?_, by omega⟩
  · unfold splitIntoChunks
    rw [splitChar_no_sep _ _ hnosep]
    unfold splitGo
    dsimp only
    rw [if_pos (Or.inr (by rw [utf8Len_bigLineA]; omega)),
      if_neg (by simp)]
    unfold splitGo
    rw [if_pos (by simp)]
    simp [mkLineChunk, joinNl, utf8Len_bigLineA]
  · have hmerge : mergeAdjacentChunks [bigCand] = [bigCand] := rfl
    rw [hmerge]
    simp [pythonFormatChunks, bigCand, utf8Len_bigLineA]

/-! ## Claim C5: the failure-tolerant parse ladder -/

/-- C5 (amended). Per-file parsing is failure-tolerant in stages: NUL bytes
are stripped (and contents over 1 MiB truncated); on grammar failure the
content is retried with remaining control characters removed and CRLF
normalized to LF; on second failure it is retried with only the first 100
lines; on third failure the parser logs the error and returns the empty
chunk list — it does not fall through to the LineChunker (contrary to the
original claim; see the counterexample) — and no path throws. -/
theorem pythonParseContent_ladder (po : String → Bool) (ex : String → List Cand)
    (fp : Option String) (content : String)
    (h0 : ¬ content.length = 0) (h1 : content.length ≤ 10485760) :
    (po (cleanStage1 content) = true →
      pythonParseContent po ex fp content =
        pythonFormatChunks (relPath fp)
          (mergeAdjacentChunks (ex (cleanStage1 content)))) ∧
    (po (cleanStage1 content) = false →
      po (cleanStage2 (cleanStage1 content)) = true →
      pythonParseContent po ex fp content =
        pythonFormatChunks (relPath fp)
          (mergeAdjacentChunks (ex (cleanStage2 (cleanStage1 content))))) ∧
    (po (cleanStage1 content) = false →
      po (cleanStage2 (cleanStage1 content)) = false →
      po (cleanStage3 (cleanStage2 (cleanStage1 content))) = true →
      pythonParseContent po ex fp content =
        pythonFormatChunks (relPath fp)
          (mergeAdjacentChunks
            (ex (cleanStage3 (cleanStage2 (cleanStage1 content)))))) ∧
    (po (cleanStage1 content) = false →
      po (cleanStage2 (cleanStage1 content)) = false →
      po (cleanStage3 (cleanStage2 (cleanStage1 content))) = false →
      pythonParseContent po ex fp content = []) := by
  unfold pythonParseContent parseLadder
  rw [if_neg h0, if_neg (by omega)]
  dsimp only
  refine ⟨fun ha => ?_, fun ha hb => ?_, fun ha hb hc => ?_, fun ha hb hc => ?_⟩
  · rw [if_pos ha]
  · rw [if_neg (by simp [ha]), if_pos hb]
  · rw [if_neg (by simp [ha]), if_neg (by simp [hb]), if_pos hc]
  · rw [if_neg (by simp [ha]), if_neg (by simp [hb]), if_neg (by simp [hc])]

def alwaysFalseOracle : String → Bool := fun _ => false
def alwaysTrueOracle : String → Bool := fun _ => true
def noCands : String → List Cand := fun _ => []

/-- Counterexample to C5 as stated: when all three parse attempts fail,
`parseContent` returns the empty list, not the LineChunker's chunking of
the original content (which is non-empty for the one-line file shown). -/
theorem parseFallback_claim_cex :
    pythonParseContent alwaysFalseOracle noCands (some "a.py") "x" = [] ∧
    splitIntoChunks 15 "a.py" "python" "x" ≠ [] := by
  constructor
  · rfl
  · decide

/-- Witness for C5 (amended): with an always-succeeding grammar the result
is the formatted merge of the extraction on the stage-1 cleaned content. -/
theorem pythonParseContent_ladder_witness :
    pythonParseContent alwaysTrueOracle noCands (some "a.py") "x" =
      pythonFormatChunks (relPath (some "a.py"))
        (mergeAdjacentChunks (noCands (cleanStage1 "x"))) :=
  (pythonParseContent_ladder alwaysTrueOracle noCands (some "a.py") "x"
    (by decide) (by decide)).1 rfl

/-! ## Claim C6: chunk `filePath` and `chunkId` -/

theorem pythonParseContent_shape (po : String → Bool) (ex : String → List Cand)
    (fp : Option String) (content : String) :
    pythonParseContent po ex fp content = [] ∨
    ∃ cands, pythonParseContent po ex fp content =
      pythonFormatChunks (relPath fp) (mergeAdjacentChunks cands) := by
  unfold pythonParseContent
  split
  · exact Or.inl rfl
  · split
    · exact Or.inl rfl
    · cases parseLadder po (cleanStage1 content) with
      | none => exact Or.inl rfl
      | some used => exact Or.inr ⟨ex used, rfl⟩

theorem pythonFormat_fields (rp : String) (cands : List Cand) (i : Nat)
    (h : i < (pythonFormatChunks rp cands).length) :
    ((pythonFormatChunks rp cands).get ⟨i, h⟩).filePath = rp ∧
    ((pythonFormatChunks rp cands).get ⟨i, h⟩).chunkId =
      sha256Hex (rp ++ ":" ++
        toString ((pythonFormatChunks rp cands).get ⟨i, h⟩).startLine ++ ":" ++
        toString ((pythonFormatChunks rp cands).get ⟨i, h⟩).endLine) := by
  unfold pythonFormatChunks at h ⊢
  simp only [List.get_eq_getElem, List.getElem_map]
  constructor
  · trivial
  · rfl

/-- C6 (amended). Every chunk emitted by the Python parser carries in
`filePath` the basename of its source file's path — not the
workspace-relative path, which the counterexample below refutes — and its
`chunkId` is the lowercase-hex SHA-256 digest of
`filePath ++ ":" ++ startLine ++ ":" ++ endLine`, every digest character
being a lowercase hexadecimal digit. -/
theorem pythonChunk_identity (po : String → Bool) (ex : String → List Cand)
    (fp : String) (content : String) (i : Nat)
    (h : i < (pythonParseContent po ex (some fp) content).length) :
    ((pythonParseContent po ex (some fp) content).get ⟨i, h⟩).filePath =
      basename fp ∧
    ((pythonParseContent po ex (some fp) content).get ⟨i, h⟩).chunkId =
      sha256Hex (basename fp ++ ":" ++
        toString ((pythonParseContent po ex (some fp) content).get ⟨i, h⟩).startLine
        ++ ":" ++
        toString ((pythonParseContent po ex (some fp) content).get ⟨i, h⟩).endLine) ∧
    (∀ ch ∈ ((pythonParseContent po ex (some fp) content).get ⟨i, h⟩).chunkId.data,
      ch ∈ hexDigits) := by
  rcases pythonParseContent_shape po ex (some fp) content with hsh | ⟨cands, hsh⟩
  · exfalso
    rw [hsh] at h
    simp at h
  · have key : ∀ (l : List Chunk),
        l = pythonFormatChunks (relPath (some fp)) (mergeAdjacentChunks cands) →
        ∀ (j : Nat) (hj : j < l.length),
          (l.get ⟨j, hj⟩).filePath = basename fp ∧
          (l.get ⟨j, hj⟩).chunkId =
            sha256Hex (basename fp ++ ":" ++ toString (l.get ⟨j, hj⟩).startLine
              ++ ":" ++ toString (l.get ⟨j, hj⟩).endLine) ∧
          (∀ ch ∈ (l.get ⟨j, hj⟩).chunkId.data, ch ∈ hexDigits) := by
      rintro l rfl j hj
      obtain ⟨hf, hid⟩ := pythonFormat_fields (relPath (some fp))
        (mergeAdjacentChunks cands) j hj
      refine ⟨hf, hid, ?_⟩
      intro ch hch
      rw [hid] at hch
      exact sha256Hex_lowerHex _ ch hch
    exact key _ hsh i h

def oneCand : String → List Cand :=
  fun _ => [⟨"function", "def f(): pass", 1, 1, some "f"⟩]

/-- Counterexample to C6 as stated: a file at the workspace-relative path
`src/a.py` yields chunks whose `filePath` is the basename `a.py`, not the
workspace-relative path. -/
theorem chunkFilePath_claim_cex :
    (pythonParseContent alwaysTrueOracle oneCand (some "src/a.py") "x").map
      Chunk.filePath = ["a.py"] ∧
    "a.py" ≠ "src/a.py" := by
  constructor
  · rfl
  · decide

/-- Witness for C6 (amended) at the first emitted chunk of a concrete
parse. -/
theorem pythonChunk_identity_witness :
    ((pythonParseContent alwaysTrueOracle oneCand (some "src/a.py") "x").get
      ⟨0, by decide⟩).filePath = basename "src/a.py" :=
  (pythonChunk_identity alwaysTrueOracle oneCand "src/a.py" "x" 0 (by decide)).1

end CodeChunker
